import Mathlib

/-!
Shallow embedding of the amgcl subdomain-deflation solver
(`amgcl/mpi/subdomain_deflation.hpp`, with the older sibling variant in
`amgcl/mpi/deflation.hpp`), together with theorems checking the
natural-language specification against this embedding.

Machine integers (`ptrdiff_t`, `int`, `long`) are modelled as `Int`/`Nat`
(the quantities involved are sizes and indices that stay far from any
overflow boundary), and floating-point values as `ℚ`, so that the algebraic
claims are settled in exact arithmetic.
-/

namespace Amgcl

/-! ## constant_deflation (subdomain_deflation.hpp, lines 81-96) -/

/-- `constant_deflation::dim()`: returns the stored `block_size`. -/
def constant_deflation_dim (block_size : Int) : Int := block_size

/-- `constant_deflation::operator()(row, j)`: the C++ expression
`row % block_size == j`, with `%` the C++ truncated remainder (`Int.tmod`)
and the boolean result converted to `int`. -/
def constant_deflation_z (block_size : Int) (row : Int) (j : Int) : Int :=
  if Int.tmod row block_size = j then 1 else 0

/-! ## Partition map and column-owner lookup -/

/-- An entry of the input row strip: (global column, value). -/
abbrev Entry := Int × ℚ

/-- A row strip: the rows owned by one rank, each a list of entries in
iteration order of the row iterator. -/
abbrev Strip := List (List Entry)

/-- `d = boost::upper_bound(domain, c) - domain.begin() - 1`
(subdomain_deflation.hpp, line 218): on the sorted partition table,
`upper_bound` returns the position of the first element greater than `c`,
so `d` is the index of the last partition start that is `≤ c`. -/
def owner (domain : List Int) (c : Int) : Nat :=
  (domain.takeWhile (fun x => decide (x ≤ c))).length - 1

/-! ## Master topology (subdomain_deflation.hpp, lines 463-475) -/

/-- `nmasters = std::min(comm.size, DirectSolver::comm_size(nz))`. -/
def nmasters (P ds : Nat) : Nat := min P ds

/-- `nslaves = (comm.size + nmasters - 1) / nmasters` (integer division). -/
def nslaves (P M : Nat) : Nat := (P + M - 1) / M

/-- `slaves[p] = std::min(p * nslaves, comm.size)`. -/
def slavesEntry (P S m : Nat) : Nat := min (m * S) P

/-- `master = comm.rank / nslaves`. -/
def masterOf (S r : Nat) : Nat := r / S

/-! ## The call operator (subdomain_deflation.hpp, lines 610-616;
deflation.hpp, lines 317-323) -/

/-- Which object a variant of `subdomain_deflation::operator()` hands to the
Krylov driver in an argument slot: the deflation operator itself (`*this`)
or the local AMG hierarchy (`*P`). -/
inductive DriverArg where
  | self : DriverArg
  | amgP : DriverArg
deriving DecidableEq

/-- The (operator, preconditioner) pair passed to the Krylov driver by
`subdomain_deflation::operator()` in `subdomain_deflation.hpp`, line 613:
`(*solve)(*this, *P, rhs, x)`. -/
def solveArgs_subdomain_deflation : DriverArg × DriverArg :=
  (DriverArg.self, DriverArg.amgP)

/-- The (operator, preconditioner) pair passed to the Krylov driver by
`subdomain_deflation::operator()` in the older `deflation.hpp`, line 320:
`(*solve)(*this, *this, rhs, x)`. -/
def solveArgs_deflation : DriverArg × DriverArg :=
  (DriverArg.self, DriverArg.self)

/-- The dataflow of `subdomain_deflation::operator()` (both variants): run
the Krylov driver on `(rhs, x)`, then `postprocess(rhs, ·)` on the updated
solution, and return the driver's convergence tuple unchanged.  The driver
and `postprocess` are the external collaborators, passed as functions; the
mutation of `x` is modelled by explicit state passing. -/
def solveCall {R X : Type} (krylov : R → X → (Nat × ℚ) × X)
    (postprocess : R → X → X) (rhs : R) (x : X) : (Nat × ℚ) × X :=
  let r := krylov rhs x
  (r.1, postprocess rhs r.2)

/-! ## The projection operator (subdomain_deflation.hpp, lines 710-727)

`project(x)` computes `df[j] = <x, Z[j]>` (the rows of `Zᵀ x`), solves
`E dx = df` through `coarse_solve`, and updates `x ← x - AZ·dx`.  In the
embedding the distributed matrices are assembled globally: `AZ` is an
`n × K` matrix, `Zt` is `Zᵀ` (`K × n`), and the exact coarse solve is
multiplication by an inverse `Einv` of `E`. -/

/-- `subdomain_deflation::project`: `x - AZ * Einv * (Zᵀ * x)`. -/
def projectVec {n K : Nat} (AZ : Matrix (Fin n) (Fin K) ℚ)
    (Einv : Matrix (Fin K) (Fin K) ℚ) (Zt : Matrix (Fin K) (Fin n) ℚ)
    (x : Fin n → ℚ) : Fin n → ℚ :=
  x - AZ.mulVec (Einv.mulVec (Zt.mulVec x))

/-! ## Remote-column set (subdomain_deflation.hpp, lines 199-251) -/

/-- Ordered-set insertion: the effect of
`rc.insert(rc_it, std::make_pair(c, 0))` on the key set of the ordered
`std::map rc`. -/
def insertSorted (c : Int) : List Int → List Int
  | [] => [c]
  | x :: xs =>
      if c < x then c :: x :: xs
      else if c = x then x :: xs
      else x :: insertSorted c xs

/-- The first pass's action on the remote-column set for one entry
(lines 218-225): entries whose column owner is not the local rank are
inserted into `rc`. -/
def insertRemote (domain : List Int) (rank : Nat) (s : List Int) (e : Entry) :
    List Int :=
  if owner domain e.1 = rank then s else insertSorted e.1 s

/-- The remote-column set after the first pass over the whole strip: the
sorted set of distinct global columns referenced by the strip whose owner
is not the local rank.  Assigning ids `0, 1, …` in iteration order of this
set (lines 244-251) makes `ghost_to_global(g)` the `g`-th element. -/
def remoteCols (domain : List Int) (rank : Nat) (A : Strip) : List Int :=
  A.foldl (fun s row => row.foldl (insertRemote domain rank) s) []

/-! ## Second pass: local/remote splitting
(subdomain_deflation.hpp, lines 342-375) -/

/-- The effect of the second pass on one strip row, restricted to the
emission into `A_loc` and `A_rem`: an entry `(c, v)` with
`domain[rank] ≤ c < domain[rank+1]` (line 350) is appended to the `A_loc`
row with column `c - chunk_start`; any other entry is appended to the
`A_rem` row with column `rc[c]`, the ghost id of `c` in the sorted
remote-column set. -/
def pass2Row (lo hi chunk_start : Int) (rcs : List Int) (row : List Entry) :
    List (Int × ℚ) × List (Nat × ℚ) :=
  row.foldl
    (fun acc e =>
      if lo ≤ e.1 ∧ e.1 < hi then (acc.1 ++ [(e.1 - chunk_start, e.2)], acc.2)
      else (acc.1, acc.2 ++ [(rcs.indexOf e.1, e.2)]))
    ([], [])

/-! ## The online matrix-vector product
(subdomain_deflation.hpp, lines 693-708) -/

/-- The contribution of one sparse row to a matrix-vector product:
`Σ (c, v) ∈ row, v * x[c]`. -/
def rowDot {α : Type} (row : List (α × ℚ)) (x : α → ℚ) : ℚ :=
  (row.map (fun e => e.2 * x e.1)).sum

/-- `subdomain_deflation::mul(alpha, x, beta, y)`: the local
`spmv(alpha, A_loc, x, beta, y)` runs between `start_exchange` and
`finish_exchange`; afterwards, only when `recv.val` is non-empty, the
received ghost values are copied to the backend vector `dv` and
`spmv(alpha, A_rem, dv, 1, y)` is added.  The exchange is modelled by the
ghost-value argument `xgh` (the contents of `recv.val` after the wait) and
`nghost = recv.val.size()` gates the remote update exactly as
`if (!recv.val.empty())` does. -/
def mulOp (alpha : ℚ) (Aloc : List (List (Int × ℚ)))
    (Arem : List (List (Nat × ℚ))) (xloc : Int → ℚ) (xgh : Nat → ℚ)
    (beta : ℚ) (y : Nat → ℚ) (nghost : Nat) (i : Nat) : ℚ :=
  let y1 := alpha * rowDot (Aloc.getD i []) xloc + beta * y i
  if nghost = 0 then y1 else y1 + alpha * rowDot (Arem.getD i []) xgh

/-! ## Marker-based accumulation into AZ
(subdomain_deflation.hpp, lines 342-371 and 427-452) -/

/-- State of the marker-based accumulation into one row of `AZ`: the
columns and values emitted so far for the current row (in slot order), and
the marker array (`-1` means untouched; otherwise it records the absolute
index of the slot that holds the coarse column). -/
structure FillState where
  cols : List Nat
  vals : List ℚ
  marker : Nat → Int

/-- One touch of coarse column `k` with contribution `v`, for a row whose
slots start at absolute position `beg`: on a first touch
(`marker[k] < az_row_beg`) a fresh slot is emitted at the row end and
recorded in the marker; on a later touch the contribution accumulates into
the recorded slot (lines 356-363 and 440-447). -/
def touch (beg : Nat) (s : FillState) (kv : Nat × ℚ) : FillState :=
  if s.marker kv.1 < (beg : Int) then
    { cols := s.cols ++ [kv.1], vals := s.vals ++ [kv.2],
      marker := fun k2 =>
        if k2 = kv.1 then ((beg + s.cols.length : Nat) : Int) else s.marker k2 }
  else
    { cols := s.cols,
      vals := s.vals.set (s.marker kv.1 - beg).toNat
        (s.vals.getD (s.marker kv.1 - beg).toNat 0 + kv.2),
      marker := s.marker }

/-- Process the touches of one row in order. -/
def touchRow (beg : Nat) (s : FillState) (ks : List (Nat × ℚ)) : FillState :=
  ks.foldl (touch beg) s

/-- The touches the second (local) pass generates for one strip row
(lines 350-364): each locally-owned entry `(c, v)` contributes, for
`j < ndv`, the coarse column `dv_start[rank] + j` with value
`v * def_vec(c - chunk_start, j)`. -/
def localTouches (lo hi chunk_start : Int) (dvStartRank ndv : Nat)
    (defvec : Int → Nat → ℚ) (row : List Entry) : List (Nat × ℚ) :=
  row.foldl
    (fun acc e =>
      if lo ≤ e.1 ∧ e.1 < hi then
        acc ++ (List.range ndv).map
          (fun j => (dvStartRank + j, e.2 * defvec (e.1 - chunk_start) j))
      else acc)
    []

/-- The touches the `AZ += A_rem * Z` pass generates for one `A_rem` row
(lines 431-448): each ghost entry `(c, v)`, with owner `d` recovered from
the receive schedule, contributes for `j < dv_size[d]` the coarse column
`dv_start[d] + j` with value `v * zrecv[zcol_ptr[c] + j]`. -/
def remoteTouches (ownerOfGhost : Nat → Nat) (dvStartF dvSizeF : Nat → Nat)
    (zval : Nat → Nat → ℚ) (row : List (Nat × ℚ)) : List (Nat × ℚ) :=
  row.foldl
    (fun acc e =>
      acc ++ (List.range (dvSizeF (ownerOfGhost e.1))).map
        (fun j => (dvStartF (ownerOfGhost e.1) + j, e.2 * zval e.1 j)))
    []

/-- The coarse columns stored in row `i` of the assembled `AZ`: the slots
emitted for the row by the local pass, followed by those emitted by the
`A_rem * Z` pass.  The remote pass continues at the slot where the local
pass stopped for the row, after the marker array was re-initialised to
`-1` (line 424); `mLoc`/`mRem` are the marker arrays each pass carries into
this row. -/
def azRowCols (begLoc : Nat) (mLoc : Nat → Int) (locTs : List (Nat × ℚ))
    (mRem : Nat → Int) (remTs : List (Nat × ℚ)) : List Nat :=
  let s1 := touchRow begLoc ⟨[], [], mLoc⟩ locTs
  let s2 := touchRow (begLoc + s1.cols.length) ⟨[], [], mRem⟩ remTs
  s1.cols ++ s2.cols

/-- Invariant of the marker-based row fill: the marker of every coarse
column emitted for the current row points back at the absolute slot index
holding it. -/
def markerInv (beg : Nat) (s : FillState) : Prop :=
  ∀ (j k : Nat), s.cols[j]? = some k → s.marker k = ((beg + j : Nat) : Int)

/-! ## AZ.ptr fixup (subdomain_deflation.hpp, lines 454-455) -/

/-- `std::rotate(az->ptr.begin(), az->ptr.end() - 1, az->ptr.end())`
followed by `az->ptr.front() = 0`: the last element moves to the front and
is then overwritten with `0`. -/
def rotateFixup (l : List Nat) : List Nat :=
  match l with
  | [] => []
  | _ => 0 :: l.dropLast

/-- The value `AZ.ptr[i]` holds after the accumulation passes: one past the
last slot filled for row `i`, the rows being filled contiguously from
position 0 with `cnt[j]` slots for row `j`. -/
def fillEnd (cnt : List Nat) (i : Nat) : Nat := (cnt.take (i + 1)).sum

/-- The whole `AZ.ptr` array just before the fixup: `fillEnd` per row, the
final entry `ptr[nrows]` (never overwritten by the row loops) still holding
the total slot capacity `cap` from the prefix sum. -/
def preFixupPtr (cnt : List Nat) (cap : Nat) : List Nat :=
  (List.range cnt.length).map (fillEnd cnt) ++ [cap]

/-! ## Coarse-operator sparsity (subdomain_deflation.hpp, lines 477-535) -/

/-- `dv_start[p]`: exclusive prefix sum of the per-rank deflation-vector
counts `dv_size` (lines 164-167). -/
def dvStart (dvSize : List Nat) (p : Nat) : Nat := (dvSize.take p).sum

/-- The rank owning coarse index `k`: the unique `q` with
`dv_start[q] ≤ k < dv_start[q+1]` (a rank with `dv_size = 0` owns no
coarse index). -/
def dvOwner (dvSize : List Nat) (k : Nat) : Nat :=
  match dvSize with
  | [] => 0
  | s :: rest => if k < s then 0 else dvOwner rest (k - s) + 1

/-- The adjacency test of the `E` assembly (lines 480-482 and 523-525):
`j == comm.rank || comm_matrix[comm.rank][j] || comm_matrix[j][comm.rank]`. -/
def eQualifies (rank : Nat) (cm : Nat → Nat → Nat) (j : Nat) : Prop :=
  j = rank ∨ cm rank j ≠ 0 ∨ cm j rank ≠ 0

instance eQualifies.decidable (rank : Nat) (cm : Nat → Nat → Nat) (j : Nat) :
    Decidable (eQualifies rank cm j) := by
  unfold eQualifies; infer_instance

/-- The column pattern of each of the `ndv` rows of rank `rank`'s strip of
`E` (lines 520-535): for each qualifying rank `j` in increasing order, the
coarse-column block `dv_start[j] .. dv_start[j] + dv_size[j] - 1`. -/
def erowCols (dvSize : List Nat) (rank : Nat) (cm : Nat → Nat → Nat) :
    List Nat :=
  (List.range dvSize.length).foldl
    (fun acc j =>
      if eQualifies rank cm j then
        acc ++ (List.range (dvSize.getD j 0)).map (fun t => dvStart dvSize j + t)
      else acc)
    []

/-! ## A concrete fixture (spec §8, scenario 1): rank 0's strip of the 1-D
Poisson matrix on 4 unknowns under the partition `domain = [0, 2, 4]`. -/

/-- Rows 0 and 1 of the tridiagonal `[-1, 2, -1]` matrix, global columns. -/
def exampleStrip : Strip :=
  [[(0, 2), (1, -1)], [(0, -1), (1, 2), (2, -1)]]

/-! # Theorems -/

/-! ## Helper lemmas on `takeWhile` and the owner lookup -/

/-- Every position inside `takeWhile p l` carries the corresponding element
of `l`, and that element satisfies `p`. -/
theorem takeWhile_get_prop {α : Type} (p : α → Bool) :
    ∀ (l : List α) (i : Nat) (hi : i < (l.takeWhile p).length),
      ∃ hl : i < l.length,
        (l.takeWhile p).get ⟨i, hi⟩ = l.get ⟨i, hl⟩ ∧ p (l.get ⟨i, hl⟩) = true
  | [], i, hi => by simp [List.takeWhile] at hi
  | a :: t, i, hi => by
    by_cases hpa : p a
    · have hrw : (a :: t).takeWhile p = a :: t.takeWhile p := by
        simp [List.takeWhile_cons, hpa]
      match i with
      | 0 => exact ⟨by simp, by simp [hrw], by simpa using hpa⟩
      | Nat.succ n =>
        have hi0 := hi
        rw [hrw] at hi0
        simp only [List.length_cons, Nat.succ_lt_succ_iff] at hi0
        obtain ⟨hl, h1, h2⟩ := takeWhile_get_prop p t n hi0
        refine ⟨by simp [Nat.succ_lt_succ_iff, hl], ?_, by simpa using h2⟩
        have hstep := List.get_of_eq hrw ⟨n.succ, hi⟩
        rw [hstep]
        simp only [List.get_cons_succ]
        exact h1
    · have hrw : (a :: t).takeWhile p = [] := by
        simp [List.takeWhile_cons, hpa]
      rw [hrw] at hi
      simp at hi

/-- The element of `l` just past `takeWhile p l` fails `p`. -/
theorem takeWhile_boundary {α : Type} (p : α → Bool) :
    ∀ (l : List α) (ht : (l.takeWhile p).length < l.length),
      p (l.get ⟨(l.takeWhile p).length, ht⟩) = false
  | [], ht => by simp at ht
  | a :: t, ht => by
    by_cases hpa : p a
    · have hrw : (a :: t).takeWhile p = a :: t.takeWhile p := by
        simp [List.takeWhile_cons, hpa]
      rw [hrw] at ht
      simp only [List.length_cons, Nat.succ_lt_succ_iff] at ht
      have hres := takeWhile_boundary p t ht
      simp only [hrw, List.length_cons]
      exact hres
    · have hrw : (a :: t).takeWhile p = [] := by
        simp [List.takeWhile_cons, hpa]
      simp only [hrw, List.length_nil]
      simpa using hpa

/-- Length of `takeWhile` over a list decomposed at the first failing
element. -/
theorem length_takeWhile_append {α : Type} (p : α → Bool) :
    ∀ (l1 : List α) (x : α) (l2 : List α),
      (∀ a ∈ l1, p a = true) → p x = false →
      (List.takeWhile p (l1 ++ x :: l2)).length = l1.length
  | [], x, l2, _, hx => by simp [List.takeWhile_cons, hx]
  | a :: t, x, l2, h1, hx => by
    have hpa : p a = true := h1 a (by simp)
    simp only [List.cons_append, List.takeWhile_cons, hpa, if_true,
      List.length_cons]
    rw [length_takeWhile_append p t x l2 (fun b hb => h1 b (by simp [hb])) hx]

/-- Characterisation of the `upper_bound` owner lookup on a sorted
partition table: for `rank + 1 < |domain|` and `c` at least the first
partition start, `owner(domain, c) = rank` exactly when
`domain[rank] ≤ c < domain[rank + 1]`. -/
theorem takeWhile_boundary_at {α : Type} (p : α → Bool) (l : List α) (n : Nat)
    (hn : n < l.length) (hlen : (l.takeWhile p).length = n) :
    p (l.get ⟨n, hn⟩) = false := by
  subst hlen
  exact takeWhile_boundary p l hn

/-- Characterisation of the `upper_bound` owner lookup on a sorted
partition table: for `rank + 1 < |domain|` and `c` at least the first
partition start, `owner(domain, c) = rank` exactly when
`domain[rank] ≤ c < domain[rank + 1]`. -/
theorem owner_eq_rank_iff (domain : List Int) (c : Int) (rank : Nat)
    (hsort : domain.Sorted (· ≤ ·)) (hrank : rank + 1 < domain.length)
    (h0 : domain.get ⟨0, by omega⟩ ≤ c) :
    owner domain c = rank ↔
      (domain.get ⟨rank, by omega⟩ ≤ c ∧ c < domain.get ⟨rank + 1, hrank⟩) := by
  have ht1 : 1 ≤ (domain.takeWhile (fun x : Int => decide (x ≤ c))).length := by
    match domain, hrank, h0 with
    | a :: t, _, h0 =>
      have hpa : (fun x : Int => decide (x ≤ c)) a = true := by
        simp only [decide_eq_true_eq]
        exact h0
      simp [List.takeWhile_cons, hpa]
  constructor
  · intro h
    have ht : (domain.takeWhile (fun x : Int => decide (x ≤ c))).length =
        rank + 1 := by
      simp only [owner] at h
      omega
    constructor
    · obtain ⟨hl, _, hsat⟩ :=
        takeWhile_get_prop (fun x : Int => decide (x ≤ c)) domain rank
          (by omega)
      simpa using hsat
    · have hb := takeWhile_boundary_at (fun x : Int => decide (x ≤ c)) domain
        (rank + 1) hrank ht
      have : ¬ (domain.get ⟨rank + 1, hrank⟩ ≤ c) := by simpa using hb
      omega
  · rintro ⟨hlo, hhi⟩
    have hsplit : domain =
        domain.take (rank + 1) ++ domain.get ⟨rank + 1, hrank⟩ ::
          domain.drop (rank + 2) := by
      conv_lhs => rw [← List.take_append_drop (rank + 1) domain]
      congr 1
      rw [List.drop_eq_get_cons hrank]
    have hall : ∀ a ∈ domain.take (rank + 1),
        (fun x : Int => decide (x ≤ c)) a = true := by
      intro a ha
      obtain ⟨i, hia⟩ := List.mem_iff_get.mp ha
      have hi2 : (i : Nat) < rank + 1 := by
        have h3 := i.isLt
        have h4 : (List.take (rank + 1) domain).length ≤ rank + 1 :=
          le_trans (le_of_eq (List.length_take _ _)) (min_le_left _ _)
        omega
      have hidom : (i : Nat) < domain.length := by omega
      have hget : (domain.take (rank + 1)).get i = domain.get ⟨i, hidom⟩ :=
        (List.get_take domain hidom hi2).symm
      have hle : domain.get ⟨(i : Nat), hidom⟩ ≤ domain.get ⟨rank, by omega⟩ :=
        hsort.rel_get_of_le (by simp only [Fin.mk_le_mk]; omega)
      simp only [decide_eq_true_eq]
      rw [← hia, hget]
      omega
    have hfail : (fun x : Int => decide (x ≤ c))
        (domain.get ⟨rank + 1, hrank⟩) = false := by
      simp only [decide_eq_false_iff_not]
      omega
    have hlen : (domain.takeWhile (fun x : Int => decide (x ≤ c))).length =
        rank + 1 := by
      conv_lhs => rw [hsplit]
      rw [length_takeWhile_append _ _ _ _ hall hfail]
      rw [List.length_take]
      omega
    simp only [owner]
    omega

/-! ## Remote-column set lemmas -/

/-- Membership after an ordered-set insertion. -/
theorem mem_insertSorted (c : Int) :
    ∀ (l : List Int) (a : Int), a ∈ insertSorted c l ↔ a = c ∨ a ∈ l
  | [], a => by simp [insertSorted]
  | x :: xs, a => by
    simp only [insertSorted]
    split
    · simp [List.mem_cons]
    next hnlt =>
      split
      next heq =>
        subst heq
        simp [List.mem_cons]
      next hne =>
        simp only [List.mem_cons, mem_insertSorted c xs a]
        tauto

/-- Ordered-set insertion preserves strict sortedness. -/
theorem sorted_insertSorted (c : Int) :
    ∀ (l : List Int), l.Sorted (· < ·) → (insertSorted c l).Sorted (· < ·)
  | [], _ => by simp [insertSorted]
  | x :: xs, h => by
    rw [List.sorted_cons] at h
    obtain ⟨hx, hxs⟩ := h
    simp only [insertSorted]
    split
    next hlt =>
      rw [List.sorted_cons]
      refine ⟨?_, by rw [List.sorted_cons]; exact ⟨hx, hxs⟩⟩
      intro b hb
      rcases List.mem_cons.mp hb with rfl | hbxs
      · exact hlt
      · exact lt_trans hlt (hx b hbxs)
    next hnlt =>
      split
      next heq => rw [List.sorted_cons]; exact ⟨hx, hxs⟩
      next hne =>
        rw [List.sorted_cons]
        refine ⟨?_, sorted_insertSorted c xs hxs⟩
        intro b hb
        rcases (mem_insertSorted c xs b).mp hb with rfl | hbxs
        · omega
        · exact hx b hbxs

/-- Folding the first pass's insertions over one row preserves strict
sortedness of the remote-column set. -/
theorem sorted_foldl_insertRemote (domain : List Int) (rank : Nat) :
    ∀ (row : List Entry) (s : List Int), s.Sorted (· < ·) →
      (row.foldl (insertRemote domain rank) s).Sorted (· < ·)
  | [], _, hs => hs
  | e :: t, s, hs => by
    simp only [List.foldl_cons]
    apply sorted_foldl_insertRemote domain rank t
    unfold insertRemote
    split
    · exact hs
    · exact sorted_insertSorted _ _ hs

/-- Membership in the remote-column set after folding one row. -/
theorem mem_foldl_insertRemote (domain : List Int) (rank : Nat) :
    ∀ (row : List Entry) (s : List Int) (a : Int),
      a ∈ row.foldl (insertRemote domain rank) s ↔
        a ∈ s ∨ ∃ v : ℚ, (a, v) ∈ row ∧ owner domain a ≠ rank
  | [], s, a => by simp
  | e :: t, s, a => by
    simp only [List.foldl_cons]
    rw [mem_foldl_insertRemote domain rank t _ a]
    unfold insertRemote
    split
    next ho =>
      constructor
      · rintro (hs | ⟨v, hv, hov⟩)
        · exact Or.inl hs
        · exact Or.inr ⟨v, List.mem_cons_of_mem e hv, hov⟩
      · rintro (hs | ⟨v, hv, hov⟩)
        · exact Or.inl hs
        · rcases List.mem_cons.mp hv with heq | hvt
          · exfalso
            apply hov
            have : a = e.1 := by rw [← heq]
            rw [this]
            exact ho
          · exact Or.inr ⟨v, hvt, hov⟩
    next ho =>
      rw [mem_insertSorted]
      constructor
      · rintro ((rfl | hs) | ⟨v, hv, hov⟩)
        · exact Or.inr ⟨e.2, List.mem_cons_self e t, ho⟩
        · exact Or.inl hs
        · exact Or.inr ⟨v, List.mem_cons_of_mem e hv, hov⟩
      · rintro (hs | ⟨v, hv, hov⟩)
        · exact Or.inl (Or.inr hs)
        · rcases List.mem_cons.mp hv with heq | hvt
          · exact Or.inl (Or.inl (by rw [← heq]))
          · exact Or.inr ⟨v, hvt, hov⟩

/-- Strict sortedness of the whole remote-column set. -/
theorem sorted_remoteCols (domain : List Int) (rank : Nat) (A : Strip) :
    (remoteCols domain rank A).Sorted (· < ·) := by
  suffices h : ∀ (B : Strip) (s : List Int), s.Sorted (· < ·) →
      (B.foldl (fun s row => row.foldl (insertRemote domain rank) s) s).Sorted
        (· < ·) by
    exact h A [] (by simp)
  intro B
  induction B with
  | nil => intro s hs; exact hs
  | cons row rest ih =>
    intro s hs
    simp only [List.foldl_cons]
    exact ih _ (sorted_foldl_insertRemote domain rank row s hs)

/-- Membership in the whole remote-column set: exactly the global columns
referenced by the strip whose owner is not the local rank. -/
theorem mem_remoteCols (domain : List Int) (rank : Nat) (A : Strip) (a : Int) :
    a ∈ remoteCols domain rank A ↔
      ∃ row ∈ A, ∃ v : ℚ, (a, v) ∈ row ∧ owner domain a ≠ rank := by
  suffices h : ∀ (B : Strip) (s : List Int),
      a ∈ B.foldl (fun s row => row.foldl (insertRemote domain rank) s) s ↔
        a ∈ s ∨ ∃ row ∈ B, ∃ v : ℚ, (a, v) ∈ row ∧ owner domain a ≠ rank by
    rw [remoteCols, h A []]
    simp
  intro B
  induction B with
  | nil => intro s; simp
  | cons row rest ih =>
    intro s
    simp only [List.foldl_cons]
    rw [ih, mem_foldl_insertRemote]
    constructor
    · rintro ((hs | ⟨v, hv, hov⟩) | ⟨r, hr, v, hv, hov⟩)
      · exact Or.inl hs
      · exact Or.inr ⟨row, List.mem_cons_self row rest, v, hv, hov⟩
      · exact Or.inr ⟨r, List.mem_cons_of_mem row hr, v, hv, hov⟩
    · rintro (hs | ⟨r, hr, v, hv, hov⟩)
      · exact Or.inl (Or.inl hs)
      · rcases List.mem_cons.mp hr with rfl | hrt
        · exact Or.inl (Or.inr ⟨v, hv, hov⟩)
        · exact Or.inr ⟨r, hrt, v, hv, hov⟩

/-- C6: the ghost renumbering built between the two passes is a strictly
increasing bijection from the compact ghost ids `[0, n_ghost)` onto the set
of distinct remote global columns referenced by the local strip:
`ghost_to_global(g) = remoteCols[g]` is strictly increasing in `g`, the
list is duplicate-free (each referenced column receives exactly one id),
and a column is in the set iff the strip references it with a non-local
owner. -/
theorem ghost_renumbering (domain : List Int) (rank : Nat) (A : Strip) :
    (∀ g1 g2 : Fin (remoteCols domain rank A).length, g1 < g2 →
      (remoteCols domain rank A).get g1 < (remoteCols domain rank A).get g2) ∧
    (remoteCols domain rank A).Nodup ∧
    (∀ c : Int, c ∈ remoteCols domain rank A ↔
      ∃ row ∈ A, ∃ v : ℚ, (c, v) ∈ row ∧ owner domain c ≠ rank) := by
  have hs := sorted_remoteCols domain rank A
  exact ⟨fun g1 g2 h => hs.rel_get_of_lt h, hs.nodup,
    mem_remoteCols domain rank A⟩

/-- Witness for C6: `domain = [0,2,4]`, rank 0, strip
`[[(3,1),(2,1)],[(5,2)]]`; column 5 is remote and receives an id. -/
theorem ghost_renumbering_witness :
    (5 : Int) ∈ remoteCols [0, 2, 4] 0 [[((3 : Int), (1 : ℚ)), (2, 1)], [(5, 2)]] :=
  ((ghost_renumbering [0, 2, 4] 0 [[(3, 1), (2, 1)], [(5, 2)]]).2.2 5).mpr
    ⟨[(5, 2)], by simp, 2, by simp, by decide⟩

/-! ## Second-pass splitting lemmas -/

/-- The two output rows of the second pass, in closed form: the `A_loc`
row holds the entries passing the ownership range test with columns
shifted by `chunk_start`; the `A_rem` row holds the remaining entries with
columns renumbered through the remote-column set. -/
theorem pass2Row_eq (lo hi cs : Int) (rcs : List Int) (row : List Entry) :
    (pass2Row lo hi cs rcs row).1 =
      (row.filter (fun e => decide (lo ≤ e.1 ∧ e.1 < hi))).map
        (fun e => (e.1 - cs, e.2)) ∧
    (pass2Row lo hi cs rcs row).2 =
      (row.filter (fun e => ! decide (lo ≤ e.1 ∧ e.1 < hi))).map
        (fun e => (rcs.indexOf e.1, e.2)) := by
  suffices h : ∀ (t : List Entry) (acc : List (Int × ℚ) × List (Nat × ℚ)),
      t.foldl
        (fun acc e =>
          if lo ≤ e.1 ∧ e.1 < hi then (acc.1 ++ [(e.1 - cs, e.2)], acc.2)
          else (acc.1, acc.2 ++ [(rcs.indexOf e.1, e.2)]))
        acc =
      (acc.1 ++ (t.filter (fun e => decide (lo ≤ e.1 ∧ e.1 < hi))).map
          (fun e => (e.1 - cs, e.2)),
        acc.2 ++ (t.filter (fun e => ! decide (lo ≤ e.1 ∧ e.1 < hi))).map
          (fun e => (rcs.indexOf e.1, e.2))) by
    rw [pass2Row, h row ([], [])]
    simp
  intro t
  induction t with
  | nil => intro acc; simp
  | cons e t ih =>
    intro acc
    by_cases hp : lo ≤ e.1 ∧ e.1 < hi
    · simp only [List.foldl_cons, if_pos hp, ih, List.filter_cons,
        decide_eq_true_eq, hp, if_true]
      simp [hp]
    · simp only [List.foldl_cons, if_neg hp, ih, List.filter_cons]
      simp [hp]

/-- A list splits into the entries passing and failing a predicate, so the
two part lengths add up to the whole. -/
theorem filter_partition_length {α : Type} (p : α → Bool) :
    ∀ l : List α,
      (l.filter p).length + (l.filter (fun a => ! p a)).length = l.length
  | [] => rfl
  | a :: t => by
    have ih := filter_partition_length p t
    by_cases h : p a <;> simp [List.filter_cons, h] <;> omega

/-- C3: for every row of the input strip, the second pass emits every entry
into exactly one of `A_loc` and `A_rem`, so the per-row entry counts add:
entries whose column owner is the local rank go to `A_loc` with the column
shifted by `chunk_start = domain[rank]`, all others go to `A_rem` under the
ghost renumbering. -/
theorem split_row_partition (domain : List Int) (rank : Nat) (rcs : List Int)
    (hsort : domain.Sorted (· ≤ ·)) (hrank : rank + 1 < domain.length)
    (row : List Entry)
    (hcols : ∀ e ∈ row, domain.get ⟨0, by omega⟩ ≤ e.1) :
    (pass2Row (domain.get ⟨rank, by omega⟩) (domain.get ⟨rank + 1, hrank⟩)
        (domain.get ⟨rank, by omega⟩) rcs row).1.length +
      (pass2Row (domain.get ⟨rank, by omega⟩) (domain.get ⟨rank + 1, hrank⟩)
        (domain.get ⟨rank, by omega⟩) rcs row).2.length = row.length ∧
    (pass2Row (domain.get ⟨rank, by omega⟩) (domain.get ⟨rank + 1, hrank⟩)
        (domain.get ⟨rank, by omega⟩) rcs row).1 =
      (row.filter (fun e => decide (owner domain e.1 = rank))).map
        (fun e => (e.1 - domain.get ⟨rank, by omega⟩, e.2)) ∧
    (pass2Row (domain.get ⟨rank, by omega⟩) (domain.get ⟨rank + 1, hrank⟩)
        (domain.get ⟨rank, by omega⟩) rcs row).2 =
      (row.filter (fun e => ! decide (owner domain e.1 = rank))).map
        (fun e => (rcs.indexOf e.1, e.2)) := by
  obtain ⟨h1, h2⟩ := pass2Row_eq (domain.get ⟨rank, by omega⟩)
    (domain.get ⟨rank + 1, hrank⟩) (domain.get ⟨rank, by omega⟩) rcs row
  have hpred : ∀ e ∈ row,
      decide (domain.get ⟨rank, by omega⟩ ≤ e.1 ∧
        e.1 < domain.get ⟨rank + 1, hrank⟩) =
      decide (owner domain e.1 = rank) := by
    intro e he
    exact decide_eq_decide.mpr
      (owner_eq_rank_iff domain e.1 rank hsort hrank (hcols e he)).symm
  have hfilter1 : row.filter
      (fun e => decide (domain.get ⟨rank, by omega⟩ ≤ e.1 ∧
        e.1 < domain.get ⟨rank + 1, hrank⟩)) =
      row.filter (fun e => decide (owner domain e.1 = rank)) :=
    List.filter_congr hpred
  have hfilter2 : row.filter
      (fun e => ! decide (domain.get ⟨rank, by omega⟩ ≤ e.1 ∧
        e.1 < domain.get ⟨rank + 1, hrank⟩)) =
      row.filter (fun e => ! decide (owner domain e.1 = rank)) :=
    List.filter_congr (fun e he => by rw [hpred e he])
  refine ⟨?_, ?_, ?_⟩
  · rw [h1, h2, List.length_map, List.length_map]
    exact filter_partition_length _ row
  · rw [h1, hfilter1]
  · rw [h2, hfilter2]

/-- Witness for C3: `domain = [0,2,4]`, rank 0, row `[(0,1),(3,2)]`,
`rcs = [3]`: one entry goes to `A_loc` (column `0 - 0`), one to `A_rem`
(ghost id 0), and the counts add to 2. -/
theorem split_row_partition_witness :
    (pass2Row 0 2 0 [3] [((0 : Int), (1 : ℚ)), (3, 2)]).1.length +
      (pass2Row 0 2 0 [3] [((0 : Int), (1 : ℚ)), (3, 2)]).2.length = 2 := by
  have h := split_row_partition [0, 2, 4] 0 [3] (by decide) (by decide)
    [((0 : Int), (1 : ℚ)), (3, 2)] (by decide)
  exact h.1

/-! ## Matrix-vector product lemmas -/

theorem rowDot_cons {α : Type} (a : α × ℚ) (l : List (α × ℚ)) (x : α → ℚ) :
    rowDot (a :: l) x = a.2 * x a.1 + rowDot l x := by
  simp [rowDot]

/-- Splitting a sparse row by a predicate preserves its dot product, as
long as each part evaluates every entry it receives to that entry's global
contribution. -/
theorem rowDot_filter_split (p : Entry → Bool) (floc : Entry → Int × ℚ)
    (frem : Entry → Nat × ℚ) (xloc : Int → ℚ) (xgh : Nat → ℚ) (xg : Int → ℚ) :
    ∀ t : List Entry,
      (∀ e ∈ t, p e = true → (floc e).2 * xloc (floc e).1 = e.2 * xg e.1) →
      (∀ e ∈ t, p e = false → (frem e).2 * xgh (frem e).1 = e.2 * xg e.1) →
      rowDot ((t.filter p).map floc) xloc +
        rowDot ((t.filter (fun a => ! p a)).map frem) xgh = rowDot t xg
  | [], _, _ => by simp [rowDot]
  | e :: t, h1, h2 => by
    have ih := rowDot_filter_split p floc frem xloc xgh xg t
      (fun a ha hp => h1 a (List.mem_cons_of_mem e ha) hp)
      (fun a ha hp => h2 a (List.mem_cons_of_mem e ha) hp)
    by_cases hp : p e
    · have hf1 : (e :: t).filter p = e :: t.filter p :=
        List.filter_cons_of_pos hp
      have hf2 : (e :: t).filter (fun a => ! p a) =
          t.filter (fun a => ! p a) :=
        List.filter_cons_of_neg (by simp [hp])
      rw [hf1, hf2, List.map_cons, rowDot_cons, rowDot_cons,
        h1 e (List.mem_cons_self e t) hp]
      linarith [ih]
    · have hpf : p e = false := by simpa using hp
      have hf1 : (e :: t).filter p = t.filter p :=
        List.filter_cons_of_neg (by simp [hpf])
      have hf2 : (e :: t).filter (fun a => ! p a) =
          e :: t.filter (fun a => ! p a) :=
        List.filter_cons_of_pos (by simp [hpf])
      rw [hf1, hf2, List.map_cons, rowDot_cons, rowDot_cons,
        h2 e (List.mem_cons_self e t) hpf]
      linarith [ih]

theorem getD_map_of_lt {α β : Type} (f : α → β) (l : List α) (i : Nat)
    (hi : i < l.length) (d : β) : (l.map f).getD i d = f (l.get ⟨i, hi⟩) := by
  rw [List.getD_eq_getElem?_getD, List.getElem?_map,
    List.getElem?_eq_getElem hi]
  simp

/-- C2: `mul(α, x, β, y)` first computes `y_i = α·(A_loc x)_i + β·y_i` and
adds `α·(A_rem x_ghost)_i` only when the rank has ghost columns; when the
local part of `x` restricts the global vector to the local range and the
exchanged ghost values agree with the owners' entries, the result on each
local row `i` is exactly `α·(A x)_i + β·y_i` of the undistributed strip
row. -/
theorem mul_matches_global (domain : List Int) (rank : Nat)
    (hsort : domain.Sorted (· ≤ ·)) (hrank : rank + 1 < domain.length)
    (A : Strip)
    (hcols : ∀ row ∈ A, ∀ e ∈ row, domain.get ⟨0, by omega⟩ ≤ e.1)
    (alpha beta : ℚ) (xg : Int → ℚ) (y : Nat → ℚ)
    (xloc : Int → ℚ)
    (hxloc : ∀ li : Int, xloc li = xg (domain.get ⟨rank, by omega⟩ + li))
    (xgh : Nat → ℚ)
    (hxgh : ∀ g : Nat, g < (remoteCols domain rank A).length →
      xgh g = xg ((remoteCols domain rank A).getD g 0))
    (i : Nat) (hi : i < A.length) :
    mulOp alpha
      (A.map (fun r => (pass2Row (domain.get ⟨rank, by omega⟩)
        (domain.get ⟨rank + 1, hrank⟩) (domain.get ⟨rank, by omega⟩)
        (remoteCols domain rank A) r).1))
      (A.map (fun r => (pass2Row (domain.get ⟨rank, by omega⟩)
        (domain.get ⟨rank + 1, hrank⟩) (domain.get ⟨rank, by omega⟩)
        (remoteCols domain rank A) r).2))
      xloc xgh beta y ((remoteCols domain rank A).length) i
      = alpha * rowDot (A.get ⟨i, hi⟩) xg + beta * y i := by
  have hAloc := getD_map_of_lt (fun r => (pass2Row (domain.get ⟨rank, by omega⟩)
    (domain.get ⟨rank + 1, hrank⟩) (domain.get ⟨rank, by omega⟩)
    (remoteCols domain rank A) r).1) A i hi []
  have hArem := getD_map_of_lt (fun r => (pass2Row (domain.get ⟨rank, by omega⟩)
    (domain.get ⟨rank + 1, hrank⟩) (domain.get ⟨rank, by omega⟩)
    (remoteCols domain rank A) r).2) A i hi []
  obtain ⟨hc1, hc2⟩ := pass2Row_eq (domain.get ⟨rank, by omega⟩)
    (domain.get ⟨rank + 1, hrank⟩) (domain.get ⟨rank, by omega⟩)
    (remoteCols domain rank A) (A.get ⟨i, hi⟩)
  have hmemA : A.get ⟨i, hi⟩ ∈ A := List.get_mem A i hi
  have hloc : ∀ e ∈ A.get ⟨i, hi⟩,
      (fun e : Entry => decide (domain.get ⟨rank, by omega⟩ ≤ e.1 ∧
        e.1 < domain.get ⟨rank + 1, hrank⟩)) e = true →
      e.2 * xloc (e.1 - domain.get ⟨rank, by omega⟩) = e.2 * xg e.1 := by
    intro e _ _
    rw [hxloc]
    have harg : domain.get ⟨rank, by omega⟩ +
        (e.1 - domain.get ⟨rank, by omega⟩) = e.1 := by ring
    rw [harg]
  have hrem : ∀ e ∈ A.get ⟨i, hi⟩,
      (fun e : Entry => decide (domain.get ⟨rank, by omega⟩ ≤ e.1 ∧
        e.1 < domain.get ⟨rank + 1, hrank⟩)) e = false →
      e.2 * xgh ((remoteCols domain rank A).indexOf e.1) = e.2 * xg e.1 := by
    intro e he hpf
    have hbnds : ¬ (domain.get ⟨rank, by omega⟩ ≤ e.1 ∧
        e.1 < domain.get ⟨rank + 1, hrank⟩) := by simpa using hpf
    have howner : owner domain e.1 ≠ rank := by
      intro hco
      exact hbnds ((owner_eq_rank_iff domain e.1 rank hsort hrank
        (hcols _ hmemA e he)).mp hco)
    have hmem : e.1 ∈ remoteCols domain rank A :=
      (mem_remoteCols domain rank A e.1).mpr
        ⟨A.get ⟨i, hi⟩, hmemA, e.2, by simpa using he, howner⟩
    have hlen : (remoteCols domain rank A).indexOf e.1 <
        (remoteCols domain rank A).length :=
      List.indexOf_lt_length.mpr hmem
    rw [hxgh _ hlen, List.getD_eq_get _ _ hlen, List.indexOf_get hlen]
  have hsplit := rowDot_filter_split
    (fun e : Entry => decide (domain.get ⟨rank, by omega⟩ ≤ e.1 ∧
      e.1 < domain.get ⟨rank + 1, hrank⟩))
    (fun e => (e.1 - domain.get ⟨rank, by omega⟩, e.2))
    (fun e => ((remoteCols domain rank A).indexOf e.1, e.2))
    xloc xgh xg (A.get ⟨i, hi⟩) hloc hrem
  simp only [mulOp, hAloc, hArem, hc1, hc2]
  by_cases hng : (remoteCols domain rank A).length = 0
  · have hrcs : remoteCols domain rank A = [] := List.length_eq_zero.mp hng
    have hallp : ∀ e ∈ A.get ⟨i, hi⟩,
        decide (domain.get ⟨rank, by omega⟩ ≤ e.1 ∧
          e.1 < domain.get ⟨rank + 1, hrank⟩) = true := by
      intro e he
      cases hd : decide (domain.get ⟨rank, by omega⟩ ≤ e.1 ∧
          e.1 < domain.get ⟨rank + 1, hrank⟩) with
      | true => rfl
      | false =>
        exfalso
        have hbnds : ¬ (domain.get ⟨rank, by omega⟩ ≤ e.1 ∧
            e.1 < domain.get ⟨rank + 1, hrank⟩) := by simpa using hd
        have howner : owner domain e.1 ≠ rank := by
          intro hco
          exact hbnds ((owner_eq_rank_iff domain e.1 rank hsort hrank
            (hcols _ hmemA e he)).mp hco)
        have hmem : e.1 ∈ remoteCols domain rank A :=
          (mem_remoteCols domain rank A e.1).mpr
            ⟨A.get ⟨i, hi⟩, hmemA, e.2, by simpa using he, howner⟩
        rw [hrcs] at hmem
        simp at hmem
    have hfe : (A.get ⟨i, hi⟩).filter
        (fun a => ! (fun e : Entry => decide (domain.get ⟨rank, by omega⟩ ≤ e.1 ∧
          e.1 < domain.get ⟨rank + 1, hrank⟩)) a) = [] := by
      rw [List.filter_eq_nil_iff]
      intro a ha
      simpa using hallp a ha
    rw [hfe] at hsplit
    simp only [List.map_nil] at hsplit
    have hz : rowDot ([] : List (Nat × ℚ)) xgh = 0 := rfl
    rw [hz, add_zero] at hsplit
    rw [if_pos hng, hsplit]
  · rw [if_neg hng]
    linear_combination alpha * hsplit

/-- Witness for C2: on the Poisson fixture (rank 0, `domain = [0,2,4]`),
with `x` the global vector `x_c = c`, `α = 1`, `β = 0`, row 1 of `mul`
equals the undistributed row product `-1·0 + 2·1 + -1·2 = 0`. -/
theorem mul_matches_global_witness :
    mulOp 1
      (exampleStrip.map (fun r => (pass2Row 0 2 0
        (remoteCols [0, 2, 4] 0 exampleStrip) r).1))
      (exampleStrip.map (fun r => (pass2Row 0 2 0
        (remoteCols [0, 2, 4] 0 exampleStrip) r).2))
      (fun li => (li : ℚ))
      (fun g => (((remoteCols [0, 2, 4] 0 exampleStrip).getD g 0 : Int) : ℚ))
      0 (fun _ => 0) ((remoteCols [0, 2, 4] 0 exampleStrip).length) 1 = 0 := by
  have h := mul_matches_global [0, 2, 4] 0 (by decide) (by decide)
    exampleStrip (by decide) 1 0 (fun c => (c : ℚ)) (fun _ => 0)
    (fun li => (li : ℚ)) (fun li => by norm_num)
    (fun g => (((remoteCols [0, 2, 4] 0 exampleStrip).getD g 0 : Int) : ℚ))
    (fun g _ => rfl) 1 (by decide)
  refine Eq.trans ?_ (h.trans ?_)
  · rfl
  · norm_num [rowDot, exampleStrip]

/-- C9: for every block size `b ≥ 1`, every local row `i ≥ 0` and every
`j ∈ [0, b)`, `constant_deflation(b)` has `dim() = b`, and `z(i, j) = 1`
when `i mod b = j`, else `z(i, j) = 0`. -/
theorem constant_deflation_spec (b i j : Int)
    (hb : 1 ≤ b) (hi : 0 ≤ i) (hj : 0 ≤ j ∧ j < b) :
    constant_deflation_dim b = b ∧
    (i % b = j → constant_deflation_z b i j = 1) ∧
    (i % b ≠ j → constant_deflation_z b i j = 0) := by
  have htm : Int.tmod i b = i % b := Int.tmod_eq_emod hi (by omega)
  refine ⟨rfl, ?_, ?_⟩ <;> intro h <;> simp [constant_deflation_z, htm, h]

/-- Witness for C9 at `b = 3`, `i = 7`, `j = 1`. -/
theorem constant_deflation_spec_witness :
    constant_deflation_dim 3 = 3 ∧ constant_deflation_z 3 7 1 = 1 := by
  have h := constant_deflation_spec 3 7 1 (by decide) (by decide)
    (by constructor <;> decide)
  exact ⟨h.1, h.2.1 (by decide)⟩

/-- C7: with `P ≥ 1` ranks and `DirectSolver::comm_size ≥ 1`, the master
topology satisfies: `M = min(P, comm_size)`; `S = nslaves` is the least
number with `P ≤ M·S` (that is, `⌈P/M⌉`); `slaves[m] = min(m·S, P)`; and for
every rank `r < P` the assigned master `r / S` is a valid master id whose
half-open slave range `[slaves[m], slaves[m+1])` contains `r`. -/
theorem master_topology (P ds : Nat) (hP : 1 ≤ P) (hds : 1 ≤ ds) :
    nmasters P ds = min P ds ∧
    (P ≤ nmasters P ds * nslaves P (nmasters P ds) ∧
      ∀ s : Nat, P ≤ nmasters P ds * s → nslaves P (nmasters P ds) ≤ s) ∧
    (∀ m : Nat, slavesEntry P (nslaves P (nmasters P ds)) m =
      min (m * nslaves P (nmasters P ds)) P) ∧
    (∀ r : Nat, r < P →
      masterOf (nslaves P (nmasters P ds)) r < nmasters P ds ∧
      slavesEntry P (nslaves P (nmasters P ds))
        (masterOf (nslaves P (nmasters P ds)) r) ≤ r ∧
      r < slavesEntry P (nslaves P (nmasters P ds))
        (masterOf (nslaves P (nmasters P ds)) r + 1)) := by
  set M := nmasters P ds with hM
  have hM1 : 1 ≤ M := by
    simp only [hM, nmasters]; omega
  set S := nslaves P M with hS
  have hPM : P ≤ M * S := by
    have h1 : (P + M - 1) % M < M := Nat.mod_lt _ (by omega)
    have h2 : M * ((P + M - 1) / M) + (P + M - 1) % M = P + M - 1 :=
      Nat.div_add_mod (P + M - 1) M
    simp only [hS, nslaves]
    omega
  have hS1 : 1 ≤ S := by
    by_contra h
    push_neg at h
    interval_cases S
    omega
  refine ⟨rfl, ⟨hPM, ?_⟩, fun m => rfl, ?_⟩
  · intro s hs
    simp only [hS, nslaves]
    rw [Nat.div_le_iff_le_mul_add_pred (by omega)]
    omega
  · intro r hr
    have hmod := Nat.div_add_mod r S
    have hmlt : r % S < S := Nat.mod_lt _ (by omega)
    have hdiv : masterOf S r < M := by
      simp only [masterOf]
      by_contra hc
      push_neg at hc
      have h3 : S * M ≤ S * (r / S) := Nat.mul_le_mul_left S hc
      have h4 : M * S = S * M := Nat.mul_comm _ _
      omega
    refine ⟨hdiv, ?_, ?_⟩
    · simp only [slavesEntry, masterOf]
      have h1 : r / S * S ≤ r := Nat.div_mul_le_self _ _
      omega
    · simp only [slavesEntry, masterOf]
      have h1 : (r / S + 1) * S = S * (r / S) + S := by ring
      omega

/-- Witness for C7 at `P = 4`, `comm_size = 2` (the spec's scenario 6):
`M = 2`, `S = 2`, rank 3 is served by master 1 with slave range
`[slaves[1], slaves[2]) = [2, 4)`. -/
theorem master_topology_witness :
    nmasters 4 2 = 2 ∧ nslaves 4 2 = 2 ∧ masterOf 2 3 = 1 ∧
    slavesEntry 4 2 1 ≤ 3 ∧ 3 < slavesEntry 4 2 2 := by
  have h := master_topology 4 2 (by decide) (by decide)
  refine ⟨by decide, by decide, by decide, ?_, ?_⟩
  · exact (h.2.2.2 3 (by decide)).2.1
  · exact (h.2.2.2 3 (by decide)).2.2

/-! ## AZ.ptr fixup lemmas -/

theorem rotateFixup_concat (l : List Nat) (x : Nat) :
    rotateFixup (l ++ [x]) = 0 :: l := by
  have h : (l ++ [x]).dropLast = l := List.dropLast_concat
  cases l with
  | nil => simp [rotateFixup]
  | cons a t =>
    have h2 : rotateFixup ((a :: t) ++ [x]) =
        0 :: ((a :: t) ++ [x]).dropLast := rfl
    rw [h2, h]

theorem sum_take_mono_succ (cnt : List Nat) :
    ∀ j : Nat, (cnt.take j).sum ≤ (cnt.take (j + 1)).sum := by
  induction cnt with
  | nil => intro j; simp
  | cons a t ih =>
    intro j
    cases j with
    | zero => simp
    | succ k =>
      simp only [List.take_succ_cons, List.sum_cons]
      exact Nat.add_le_add_left (ih k) a

/-- C5: once the `A_rem * Z` accumulation pass has left `AZ.ptr[i]` one
past the last slot filled for row `i` — the rows being filled contiguously
from position 0, row `i` occupying `cnt[i]` slots — a single rotate-right
of the pointer array followed by zeroing the first entry yields a valid
CSR pointer array: `ptr[0] = 0`, `ptr` is nondecreasing, and row `i`'s
slots occupy exactly `[ptr[i], ptr[i+1])`. -/
theorem az_ptr_fixup (cnt : List Nat) (cap : Nat) :
    rotateFixup (preFixupPtr cnt cap) =
      0 :: (List.range cnt.length).map (fillEnd cnt) ∧
    (rotateFixup (preFixupPtr cnt cap)).getD 0 0 = 0 ∧
    (∀ j : Nat, j + 1 < (rotateFixup (preFixupPtr cnt cap)).length →
      (rotateFixup (preFixupPtr cnt cap)).getD j 0 ≤
        (rotateFixup (preFixupPtr cnt cap)).getD (j + 1) 0) ∧
    (∀ i : Nat, i < cnt.length →
      (rotateFixup (preFixupPtr cnt cap)).getD i 0 = (cnt.take i).sum ∧
      (rotateFixup (preFixupPtr cnt cap)).getD (i + 1) 0 =
        (cnt.take (i + 1)).sum) := by
  have hrw : rotateFixup (preFixupPtr cnt cap) =
      0 :: (List.range cnt.length).map (fillEnd cnt) :=
    rotateFixup_concat _ cap
  have hgetD : ∀ i : Nat, i < cnt.length →
      (rotateFixup (preFixupPtr cnt cap)).getD (i + 1) 0 =
        (cnt.take (i + 1)).sum := by
    intro i hilt
    rw [hrw]
    show ((List.range cnt.length).map (fillEnd cnt)).getD i 0 = _
    rw [getD_map_of_lt (fillEnd cnt) _ i (by simpa using hilt) 0]
    rw [List.get_range]
    rfl
  refine ⟨hrw, by rw [hrw]; rfl, ?_, ?_⟩
  · intro j hj
    rw [hrw] at hj
    simp only [List.length_cons, List.length_map, List.length_range] at hj
    cases j with
    | zero =>
      rw [hrw]
      simp
    | succ m =>
      rw [hgetD m (by omega), hgetD (m + 1) (by omega)]
      exact sum_take_mono_succ cnt (m + 1)
  · intro i hilt
    refine ⟨?_, hgetD i hilt⟩
    cases i with
    | zero => rw [hrw]; rfl
    | succ m => rw [hgetD m (by omega)]

/-- Witness for C5 at `cnt = [2, 1]`, `cap = 3`: the fixed-up pointer array
is `[0, 2, 3]`. -/
theorem az_ptr_fixup_witness :
    rotateFixup (preFixupPtr [2, 1] 3) = [0, 2, 3] ∧
    rotateFixup (preFixupPtr [2, 1] 3) =
      0 :: (List.range ([2, 1] : List Nat).length).map (fillEnd [2, 1]) := by
  have h := az_ptr_fixup [2, 1] 3
  exact ⟨by rw [h.1]; rfl, h.1⟩

/-! ## Coarse-operator sparsity lemmas -/

theorem dvOwner_spec :
    ∀ (dvSize : List Nat) (k : Nat), k < dvSize.sum →
      dvOwner dvSize k < dvSize.length ∧
      dvStart dvSize (dvOwner dvSize k) ≤ k ∧
      k < dvStart dvSize (dvOwner dvSize k) +
        dvSize.getD (dvOwner dvSize k) 0
  | [], k, hk => by simp at hk
  | s :: rest, k, hk => by
    simp only [dvOwner]
    split
    next hks =>
      refine ⟨by simp, by simp [dvStart], ?_⟩
      simpa [dvStart] using hks
    next hks =>
      push_neg at hks
      have hsum : k - s < rest.sum := by
        simp only [List.sum_cons] at hk
        omega
      obtain ⟨hlen, hlo, hhi⟩ := dvOwner_spec rest (k - s) hsum
      have hstart : dvStart (s :: rest) (dvOwner rest (k - s) + 1) =
          s + dvStart rest (dvOwner rest (k - s)) := by
        simp [dvStart, List.take_succ_cons]
      have hget : (s :: rest).getD (dvOwner rest (k - s) + 1) 0 =
          rest.getD (dvOwner rest (k - s)) 0 := rfl
      refine ⟨by simp; omega, ?_, ?_⟩
      · rw [hstart]; omega
      · rw [hstart, hget]; omega

theorem dvOwner_unique :
    ∀ (dvSize : List Nat) (j k : Nat), j < dvSize.length →
      dvStart dvSize j ≤ k → k < dvStart dvSize j + dvSize.getD j 0 →
      dvOwner dvSize k = j
  | [], j, k, hj, _, _ => by simp at hj
  | s :: rest, j, k, hj, h1, h2 => by
    cases j with
    | zero =>
      have hks : k < s := by
        simpa [dvStart] using h2
      simp [dvOwner, hks]
    | succ m =>
      have hstart : dvStart (s :: rest) (m + 1) = s + dvStart rest m := by
        simp [dvStart, List.take_succ_cons]
      have hget : (s :: rest).getD (m + 1) 0 = rest.getD m 0 := rfl
      have hks : ¬ (k < s) := by
        rw [hstart] at h1
        omega
      simp only [dvOwner, if_neg hks]
      have hrec := dvOwner_unique rest m (k - s) (by simpa using hj)
        (by rw [hstart] at h1; omega)
        (by rw [hstart, hget] at h2; omega)
      omega

theorem mem_erow_foldl (dvSize : List Nat) (rank : Nat)
    (cm : Nat → Nat → Nat) :
    ∀ (js : List Nat) (acc : List Nat) (k : Nat),
      (k ∈ js.foldl
        (fun acc j =>
          if eQualifies rank cm j then
            acc ++ (List.range (dvSize.getD j 0)).map
              (fun t => dvStart dvSize j + t)
          else acc)
        acc) ↔
      (k ∈ acc ∨ ∃ j ∈ js, eQualifies rank cm j ∧
        dvStart dvSize j ≤ k ∧ k < dvStart dvSize j + dvSize.getD j 0)
  | [], acc, k => by simp
  | j0 :: js, acc, k => by
    simp only [List.foldl_cons]
    rw [mem_erow_foldl dvSize rank cm js _ k]
    by_cases hq : eQualifies rank cm j0
    · rw [if_pos hq]
      simp only [List.mem_append, List.mem_map, List.mem_range]
      constructor
      · rintro ((hacc | ⟨t, ht, rfl⟩) | ⟨j, hjmem, hq2, hlo, hhi⟩)
        · exact Or.inl hacc
        · exact Or.inr ⟨j0, List.mem_cons_self j0 js, hq, by omega, by omega⟩
        · exact Or.inr ⟨j, List.mem_cons_of_mem j0 hjmem, hq2, hlo, hhi⟩
      · rintro (hacc | ⟨j, hjmem, hq2, hlo, hhi⟩)
        · exact Or.inl (Or.inl hacc)
        · rcases List.mem_cons.mp hjmem with rfl | hjs
          · exact Or.inl (Or.inr ⟨k - dvStart dvSize j, by omega, by omega⟩)
          · exact Or.inr ⟨j, hjs, hq2, hlo, hhi⟩
    · rw [if_neg hq]
      constructor
      · rintro (hacc | ⟨j, hjmem, hq2, hlo, hhi⟩)
        · exact Or.inl hacc
        · exact Or.inr ⟨j, List.mem_cons_of_mem j0 hjmem, hq2, hlo, hhi⟩
      · rintro (hacc | ⟨j, hjmem, hq2, hlo, hhi⟩)
        · exact Or.inl hacc
        · rcases List.mem_cons.mp hjmem with rfl | hjs
          · exact absurd hq2 hq
          · exact Or.inr ⟨j, hjs, hq2, hlo, hhi⟩

/-- Membership in an `E`-strip row pattern: exactly the coarse columns of
blocks whose rank qualifies under the symmetrized adjacency. -/
theorem mem_erowCols (dvSize : List Nat) (rank : Nat) (cm : Nat → Nat → Nat)
    (k : Nat) :
    k ∈ erowCols dvSize rank cm ↔
      ∃ j < dvSize.length, eQualifies rank cm j ∧
        dvStart dvSize j ≤ k ∧ k < dvStart dvSize j + dvSize.getD j 0 := by
  rw [erowCols, mem_erow_foldl]
  simp only [List.not_mem_nil, false_or, List.mem_range]

/-- C4: for coarse indices `k1, k2` with owners `p = owner(k1)`,
`q = owner(k2)`, the entry `E[k1, k2]` is materialized in rank `p`'s strip
iff `p = q ∨ comm_matrix[p][q] > 0 ∨ comm_matrix[q][p] > 0`; consequently
the nonzero pattern of the assembled `E` is symmetric. -/
theorem E_pattern_symmetric (dvSize : List Nat) (cm : Nat → Nat → Nat)
    (k1 k2 : Nat) (h1 : k1 < dvSize.sum) (h2 : k2 < dvSize.sum) :
    (k2 ∈ erowCols dvSize (dvOwner dvSize k1) cm ↔
      (dvOwner dvSize k1 = dvOwner dvSize k2 ∨
        cm (dvOwner dvSize k1) (dvOwner dvSize k2) ≠ 0 ∨
        cm (dvOwner dvSize k2) (dvOwner dvSize k1) ≠ 0)) ∧
    (k2 ∈ erowCols dvSize (dvOwner dvSize k1) cm ↔
      k1 ∈ erowCols dvSize (dvOwner dvSize k2) cm) := by
  have key : ∀ (a b : Nat), a < dvSize.sum → b < dvSize.sum →
      (b ∈ erowCols dvSize (dvOwner dvSize a) cm ↔
        (dvOwner dvSize a = dvOwner dvSize b ∨
          cm (dvOwner dvSize a) (dvOwner dvSize b) ≠ 0 ∨
          cm (dvOwner dvSize b) (dvOwner dvSize a) ≠ 0)) := by
    intro a b ha hb
    obtain ⟨hblen, hblo, hbhi⟩ := dvOwner_spec dvSize b hb
    rw [mem_erowCols]
    constructor
    · rintro ⟨j, hjlen, hq, hlo, hhi⟩
      have hjb : j = dvOwner dvSize b :=
        (dvOwner_unique dvSize j b hjlen hlo hhi).symm
      subst hjb
      rcases hq with heq | hcm | hcm
      · exact Or.inl heq.symm
      · exact Or.inr (Or.inl hcm)
      · exact Or.inr (Or.inr hcm)
    · intro hcond
      refine ⟨dvOwner dvSize b, hblen, ?_, hblo, hbhi⟩
      rcases hcond with heq | hcm | hcm
      · exact Or.inl heq.symm
      · exact Or.inr (Or.inl hcm)
      · exact Or.inr (Or.inr hcm)
  refine ⟨key k1 k2 h1 h2, ?_⟩
  rw [key k1 k2 h1 h2, key k2 k1 h2 h1]
  tauto

/-- Witness for C4 at `dv_size = [1, 1]`, a one-sided `comm_matrix` with
`cm[0][1] = 1`, `cm[1][0] = 0`: column 1 is still materialized in row 0's
pattern (symmetrized adjacency), and so is column 0 in row 1's. -/
theorem E_pattern_symmetric_witness :
    1 ∈ erowCols [1, 1] (dvOwner [1, 1] 0)
      (fun p q => if p = 0 ∧ q = 1 then 1 else 0) ∧
    0 ∈ erowCols [1, 1] (dvOwner [1, 1] 1)
      (fun p q => if p = 0 ∧ q = 1 then 1 else 0) := by
  have h := E_pattern_symmetric [1, 1]
    (fun p q => if p = 0 ∧ q = 1 then 1 else 0) 0 1 (by decide) (by decide)
  have hm : 1 ∈ erowCols [1, 1] (dvOwner [1, 1] 0)
      (fun p q => if p = 0 ∧ q = 1 then 1 else 0) :=
    h.1.mpr (Or.inr (Or.inl (by decide)))
  exact ⟨hm, h.2.mp hm⟩

/-! ## Marker-scheme lemmas -/

/-- A single touch preserves the marker invariant: an emission records its
slot, an accumulation changes neither the columns nor the markers. -/
theorem touch_markerInv (beg : Nat) (s : FillState) (kv : Nat × ℚ)
    (h : markerInv beg s) : markerInv beg (touch beg s kv) := by
  intro j k hjk
  by_cases hlt : s.marker kv.1 < (beg : Int)
  · simp only [touch, if_pos hlt] at hjk ⊢
    rcases Nat.lt_trichotomy j s.cols.length with hj | hj | hj
    · rw [List.getElem?_append, if_pos hj] at hjk
      have hk := h j k hjk
      have hne : k ≠ kv.1 := by
        intro heq
        rw [heq] at hk
        rw [hk] at hlt
        push_cast at hlt
        omega
      simp [hne, hk]
    · rw [List.getElem?_append, if_neg (by omega)] at hjk
      rw [hj] at hjk ⊢
      simp only [Nat.sub_self] at hjk
      have hk : k = kv.1 := by
        simpa using hjk.symm
      simp [hk]
    · rw [List.getElem?_append, if_neg (by omega)] at hjk
      rw [List.getElem?_eq_none (by simp; omega)] at hjk
      exact absurd hjk (by simp)
  · simp only [touch, if_neg hlt] at hjk ⊢
    exact h j k hjk

/-- The marker invariant is preserved along a whole row of touches. -/
theorem touchRow_markerInv (beg : Nat) :
    ∀ (ks : List (Nat × ℚ)) (s : FillState), markerInv beg s →
      markerInv beg (touchRow beg s ks)
  | [], _, h => h
  | kv :: ks, s, h => by
    simp only [touchRow, List.foldl_cons]
    exact touchRow_markerInv beg ks (touch beg s kv)
      (touch_markerInv beg s kv h)

/-- The marker invariant forces the emitted columns to be pairwise
distinct. -/
theorem markerInv_nodup (beg : Nat) (s : FillState) (h : markerInv beg s) :
    s.cols.Nodup := by
  rw [List.nodup_iff_injective_get]
  intro a b hab
  have ha : s.cols[(a : Nat)]? = some (s.cols.get a) := by
    rw [List.getElem?_eq_getElem a.isLt, List.get_eq_getElem]
  have hb : s.cols[(b : Nat)]? = some (s.cols.get b) := by
    rw [List.getElem?_eq_getElem b.isLt, List.get_eq_getElem]
  have h1 := h a _ ha
  have h2 := h b _ hb
  rw [hab] at h1
  have h3 : ((beg + (a : Nat) : Nat) : Int) = ((beg + (b : Nat) : Nat) : Int) :=
    h1.symm.trans h2
  have h4 : beg + (a : Nat) = beg + (b : Nat) := by exact_mod_cast h3
  exact Fin.ext (by omega)

/-- Columns emitted by a row of touches either were already present or were
touched. -/
theorem touchRow_cols_sub (beg : Nat) :
    ∀ (ks : List (Nat × ℚ)) (s : FillState) (c : Nat),
      c ∈ (touchRow beg s ks).cols → c ∈ s.cols ∨ ∃ v : ℚ, (c, v) ∈ ks
  | [], _, _, h => Or.inl h
  | kv :: ks, s, c, h => by
    simp only [touchRow, List.foldl_cons] at h
    rcases touchRow_cols_sub beg ks (touch beg s kv) c h with hc | ⟨v, hv⟩
    · by_cases hlt : s.marker kv.1 < (beg : Int)
      · simp only [touch, if_pos hlt] at hc
        rcases List.mem_append.mp hc with h1 | h2
        · exact Or.inl h1
        · have hck : c = kv.1 := by simpa using h2
          refine Or.inr ⟨kv.2, ?_⟩
          rw [hck]
          exact List.mem_cons_self kv ks
      · simp only [touch, if_neg hlt] at hc
        exact Or.inl hc
    · exact Or.inr ⟨v, List.mem_cons_of_mem kv hv⟩

/-- Every coarse column touched by the local pass lies in the local rank's
`dv` block. -/
theorem localTouches_mem (lo hi cs : Int) (dvStartRank ndv : Nat)
    (defvec : Int → Nat → ℚ) (row : List Entry) :
    ∀ kv ∈ localTouches lo hi cs dvStartRank ndv defvec row,
      dvStartRank ≤ kv.1 ∧ kv.1 < dvStartRank + ndv := by
  suffices h : ∀ (t : List Entry) (acc : List (Nat × ℚ)),
      (∀ kv ∈ acc, dvStartRank ≤ kv.1 ∧ kv.1 < dvStartRank + ndv) →
      ∀ kv ∈ t.foldl
        (fun acc e =>
          if lo ≤ e.1 ∧ e.1 < hi then
            acc ++ (List.range ndv).map
              (fun j => (dvStartRank + j, e.2 * defvec (e.1 - cs) j))
          else acc)
        acc,
        dvStartRank ≤ kv.1 ∧ kv.1 < dvStartRank + ndv by
    exact h row [] (by simp)
  intro t
  induction t with
  | nil => exact fun acc hacc kv hkv => hacc kv hkv
  | cons e t ih =>
    intro acc hacc kv hkv
    simp only [List.foldl_cons] at hkv
    by_cases hp : lo ≤ e.1 ∧ e.1 < hi
    · rw [if_pos hp] at hkv
      refine ih _ ?_ kv hkv
      intro kv2 hkv2
      rcases List.mem_append.mp hkv2 with h1 | h2
      · exact hacc kv2 h1
      · obtain ⟨j, hj, rfl⟩ := List.mem_map.mp h2
        simp only [List.mem_range] at hj
        constructor
        · exact Nat.le_add_right _ _
        · simpa using hj
    · rw [if_neg hp] at hkv
      exact ih _ hacc kv hkv

/-- Every coarse column touched by the remote pass lies in the `dv` block
of some ghost column's owner. -/
theorem remoteTouches_mem (ownerOfGhost : Nat → Nat)
    (dvStartF dvSizeF : Nat → Nat) (zval : Nat → Nat → ℚ)
    (row : List (Nat × ℚ)) :
    ∀ kv ∈ remoteTouches ownerOfGhost dvStartF dvSizeF zval row,
      ∃ gc : Nat, dvStartF (ownerOfGhost gc) ≤ kv.1 ∧
        kv.1 < dvStartF (ownerOfGhost gc) + dvSizeF (ownerOfGhost gc) := by
  suffices h : ∀ (t : List (Nat × ℚ)) (acc : List (Nat × ℚ)),
      (∀ kv ∈ acc, ∃ gc : Nat, dvStartF (ownerOfGhost gc) ≤ kv.1 ∧
        kv.1 < dvStartF (ownerOfGhost gc) + dvSizeF (ownerOfGhost gc)) →
      ∀ kv ∈ t.foldl
        (fun acc e =>
          acc ++ (List.range (dvSizeF (ownerOfGhost e.1))).map
            (fun j => (dvStartF (ownerOfGhost e.1) + j, e.2 * zval e.1 j)))
        acc,
        ∃ gc : Nat, dvStartF (ownerOfGhost gc) ≤ kv.1 ∧
          kv.1 < dvStartF (ownerOfGhost gc) + dvSizeF (ownerOfGhost gc) by
    exact h row [] (by simp)
  intro t
  induction t with
  | nil => exact fun acc hacc kv hkv => hacc kv hkv
  | cons e t ih =>
    intro acc hacc kv hkv
    simp only [List.foldl_cons] at hkv
    refine ih _ ?_ kv hkv
    intro kv2 hkv2
    rcases List.mem_append.mp hkv2 with h1 | h2
    · exact hacc kv2 h1
    · obtain ⟨j, hj, rfl⟩ := List.mem_map.mp h2
      simp only [List.mem_range] at hj
      exact ⟨e.1, Nat.le_add_right _ _, by simpa using hj⟩

/-- C10: in every row of the assembled `AZ` the stored coarse-column
indices are pairwise distinct.  Within each pass the marker emits a slot
for a `(row, coarse column)` pair at most once and every later
contribution accumulates into the recorded slot; across the two passes the
local pass touches only the local rank's `dv` block while the remote pass
touches only the blocks of ghost-column owners, so when those blocks are
disjoint from the local one (owners are remote ranks and `dv_start` blocks
are disjoint) the concatenated slot list of the row is duplicate-free. -/
theorem az_row_cols_nodup (begLoc : Nat) (mLoc mRem : Nat → Int)
    (lo hi cs : Int) (dvStartRank ndv : Nat) (defvec : Int → Nat → ℚ)
    (row : List Entry) (ownerOfGhost : Nat → Nat)
    (dvStartF dvSizeF : Nat → Nat) (zval : Nat → Nat → ℚ)
    (remRow : List (Nat × ℚ))
    (hblocks : ∀ gc : Nat,
      dvStartF (ownerOfGhost gc) + dvSizeF (ownerOfGhost gc) ≤ dvStartRank ∨
      dvStartRank + ndv ≤ dvStartF (ownerOfGhost gc)) :
    (azRowCols begLoc mLoc
      (localTouches lo hi cs dvStartRank ndv defvec row) mRem
      (remoteTouches ownerOfGhost dvStartF dvSizeF zval remRow)).Nodup := by
  have hinit1 : markerInv begLoc (⟨[], [], mLoc⟩ : FillState) := by
    intro j k hjk
    simp at hjk
  have hinit2 : ∀ b : Nat, markerInv b (⟨[], [], mRem⟩ : FillState) := by
    intro b j k hjk
    simp at hjk
  unfold azRowCols
  apply List.Nodup.append
  · exact markerInv_nodup begLoc _
      (touchRow_markerInv begLoc _ _ hinit1)
  · exact markerInv_nodup _ _
      (touchRow_markerInv _ _ _ (hinit2 _))
  · intro c hc1 hc2
    rcases touchRow_cols_sub begLoc _ _ c hc1 with habs | ⟨v1, hv1⟩
    · simp at habs
    rcases touchRow_cols_sub _ _ _ c hc2 with habs | ⟨v2, hv2⟩
    · simp at habs
    have hb1 := localTouches_mem lo hi cs dvStartRank ndv defvec row
      (c, v1) hv1
    obtain ⟨gc, hb2⟩ := remoteTouches_mem ownerOfGhost dvStartF dvSizeF
      zval remRow (c, v2) hv2
    have := hblocks gc
    simp only at hb1 hb2
    omega

/-- Witness for C10: one strip row `[(0,-1),(1,2),(2,-1)]` of the Poisson
fixture with a single local deflation vector (`dv_start[0] = 0`,
`ndv = 1`), one ghost column owned by rank 1 (`dv_start[1] = 1`,
`dv_size[1] = 1`): the assembled row's coarse columns are distinct. -/
theorem az_row_cols_nodup_witness :
    (azRowCols 0 (fun _ => -1)
      (localTouches 0 2 0 0 1 (fun _ _ => 1)
        [((0 : Int), (-1 : ℚ)), (1, 2), (2, -1)])
      (fun _ => -1)
      (remoteTouches (fun _ => 1) (fun p => p) (fun _ => 1) (fun _ _ => 1)
        [(0, -1)])).Nodup :=
  az_row_cols_nodup 0 (fun _ => -1) (fun _ => -1) 0 2 0 0 1 (fun _ _ => 1)
    [((0 : Int), (-1 : ℚ)), (1, 2), (2, -1)] (fun _ => 1) (fun p => p)
    (fun _ => 1) (fun _ _ => 1) [(0, -1)] (fun _ => Or.inr (by simp))

/-- C1 counterexample: in `subdomain_deflation.hpp` (line 613) the call
operator does *not* pass the deflation object as both driver arguments:
the preconditioner slot receives the local AMG hierarchy `*P`. -/
theorem solveArgs_not_both_self :
    solveArgs_subdomain_deflation ≠ (DriverArg.self, DriverArg.self) := by
  decide

/-- C1 (amended): `solve(rhs, x)` invokes the Krylov driver with the
deflation object as the operator and — in `subdomain_deflation.hpp` — the
local AMG hierarchy `*P` as the preconditioner (the older `deflation.hpp`
passes `*this` in both slots); it then runs `postprocess(rhs, x)` on the
driver's solution and returns exactly the driver's
`(iterations, residual_norm)` tuple. -/
theorem solveCall_spec {R X : Type} (krylov : R → X → (Nat × ℚ) × X)
    (postprocess : R → X → X) (rhs : R) (x : X) :
    (solveCall krylov postprocess rhs x).1 = (krylov rhs x).1 ∧
    (solveCall krylov postprocess rhs x).2 = postprocess rhs (krylov rhs x).2 ∧
    solveArgs_subdomain_deflation = (DriverArg.self, DriverArg.amgP) ∧
    solveArgs_deflation = (DriverArg.self, DriverArg.self) := by
  exact ⟨rfl, rfl, rfl, rfl⟩

/-- C8: with the coarse operator `E = Zᵀ·AZ` and an exact coarse solve
(`E·Einv = 1`), the deflated component of a projected vector vanishes
(`Zᵀ·project(x) = 0`), and projection is idempotent:
`project(project(x)) = project(x)` (exact arithmetic stands in for the
spec's floating-point tolerance). -/
theorem project_idempotent {n K : Nat}
    (AZ : Matrix (Fin n) (Fin K) ℚ) (Zt : Matrix (Fin K) (Fin n) ℚ)
    (E Einv : Matrix (Fin K) (Fin K) ℚ)
    (hE : Zt * AZ = E) (hInv : E * Einv = 1) (x : Fin n → ℚ) :
    Zt.mulVec (projectVec AZ Einv Zt x) = 0 ∧
    projectVec AZ Einv Zt (projectVec AZ Einv Zt x) = projectVec AZ Einv Zt x := by
  have hcomm : Zt * (AZ * Einv) = 1 := by
    rw [← Matrix.mul_assoc, hE, hInv]
  have hz : Zt.mulVec (projectVec AZ Einv Zt x) = 0 := by
    simp only [projectVec, Matrix.mulVec_sub]
    have h3 : Zt.mulVec (AZ.mulVec (Einv.mulVec (Zt.mulVec x))) = Zt.mulVec x := by
      rw [Matrix.mulVec_mulVec, Matrix.mulVec_mulVec, Matrix.mul_assoc, hcomm,
        Matrix.one_mulVec]
    rw [h3, sub_self]
  refine ⟨hz, ?_⟩
  have : projectVec AZ Einv Zt (projectVec AZ Einv Zt x) =
      projectVec AZ Einv Zt x - AZ.mulVec (Einv.mulVec 0) := by
    simp only [projectVec] at hz ⊢
    rw [hz]
  rw [this]
  simp [Matrix.mulVec_zero]

/-- Witness for C8 at `n = K = 1`, `AZ = Zt = E = Einv = 1`, `x = (5)`. -/
theorem project_idempotent_witness :
    Matrix.mulVec (1 : Matrix (Fin 1) (Fin 1) ℚ)
      (projectVec (1 : Matrix (Fin 1) (Fin 1) ℚ) 1 1 (fun _ => 5)) = 0 ∧
    projectVec (1 : Matrix (Fin 1) (Fin 1) ℚ) 1 1
      (projectVec (1 : Matrix (Fin 1) (Fin 1) ℚ) 1 1 (fun _ => 5)) =
    projectVec (1 : Matrix (Fin 1) (Fin 1) ℚ) 1 1 (fun _ => 5) :=
  project_idempotent 1 1 1 1 (by simp) (by simp) (fun _ => 5)

end Amgcl
